import Mathlib

/-!
Verification development for the transcript-synchronization pipeline
(`scripts/` of the 20minuteleaders website repository).

The Python scripts are shallowly embedded: strings are processed as
`List Char`, stateful per-item processing becomes pure functions from an
explicit environment (the responses of the external services) and the
current progress state to the new progress state plus a trace of the
externally visible actions, and fallible code returns `Except`/`Option`.
Python's `\d`, `str.isdigit`, `str.lower` and whitespace handling are
modelled on their ASCII behaviour; every concrete input used below is
ASCII, where the two agree.
-/

namespace Sync

/-- ASCII whitespace, as stripped by Python `str.strip()` / split by `str.split()`. -/
def isPySpace (c : Char) : Bool :=
  c == ' ' || c == '\t' || c == '\n' || c == '\r' || c == '\x0b' || c == '\x0c'

/-- ASCII digit, modelling `\d` in the scripts' regexes and `str.isdigit`. -/
def isDigitChar (c : Char) : Bool := '0' ≤ c && c ≤ '9'

/-- Python `str.strip()`: drop whitespace from both ends. -/
def stripL (l : List Char) : List Char :=
  ((l.dropWhile isPySpace).reverse.dropWhile isPySpace).reverse

/-- Tests that `p` is an initial segment of `l` (Python `str.startswith`). -/
def leadsWith : List Char → List Char → Bool
  | [], _ => true
  | _ :: _, [] => false
  | p :: ps, c :: cs => p == c && leadsWith ps cs

/-- Tests that `p` occurs as a contiguous substring of the second list (Python `in`). -/
def occursInL (p : List Char) : List Char → Bool
  | [] => leadsWith p []
  | c :: rest => leadsWith p (c :: rest) || occursInL p rest

/-- Substring test on strings (Python `needle in hay`). -/
def occursIn (needle hay : String) : Bool := occursInL needle.toList hay.toList

/-- Python `s.split('\n')` (keeps empty pieces, `"".split('\n') = [""]`). -/
def splitLines : List Char → List (List Char)
  | [] => [[]]
  | c :: rest =>
    if c == '\n' then [] :: splitLines rest
    else match splitLines rest with
      | [] => [[c]]
      | l :: ls => (c :: l) :: ls

/-- Worker for `splitWs`: `acc` holds the current word reversed. -/
def splitWsGo : List Char → List Char → List (List Char)
  | acc, [] => if acc.isEmpty then [] else [acc.reverse]
  | acc, c :: rest =>
    if isPySpace c then
      if acc.isEmpty then splitWsGo [] rest else acc.reverse :: splitWsGo [] rest
    else splitWsGo (c :: acc) rest

/-- Python `str.split()` with no argument: split on whitespace runs, no empty words. -/
def splitWs (l : List Char) : List (List Char) := splitWsGo [] l

/-- Python `' '.join(pieces)` for the scripts' use (pieces never contain `'\n'`). -/
def joinSpace : List (List Char) → List Char
  | [] => []
  | [l] => l
  | l :: l2 :: ls => l ++ ' ' :: joinSpace (l2 :: ls)

/-- Nonempty and all digits: `re.match(r'^\d+$', line)` / `str.isdigit`. -/
def allDigitsL (l : List Char) : Bool := !l.isEmpty && l.all isDigitChar

/-- The line starts with `\d{2}:\d{2}:\d{2}` (the SRT timestamp check). -/
def tsStart : List Char → Bool
  | a :: b :: c :: d :: e :: f :: g :: h :: _ =>
    isDigitChar a && isDigitChar b && c == ':' && isDigitChar d && isDigitChar e &&
      f == ':' && isDigitChar g && isDigitChar h
  | _ => false

/-- The cue separator `-->`. -/
def dashArrow : List Char := ['-', '-', '>']

/-- Worker for `removeTags`.  The first argument is `some buf` while the scan is
inside a potential tag: `buf` holds (reversed) the characters seen since the
opening `'<'`.  A closing `'>'` after at least one non-`'>'` character deletes
the whole span, mirroring one left-to-right pass of `re.sub(r'<[^>]+>', '', line)`;
an unclosed `'<'` (or an immediate `<>`) is kept literally, as the regex does
not match there. -/
def rmTagsGo : Option (List Char) → List Char → List Char
  | none, [] => []
  | some buf, [] => '<' :: buf.reverse
  | none, c :: rest =>
    if c == '<' then rmTagsGo (some []) rest else c :: rmTagsGo none rest
  | some buf, c :: rest =>
    if c == '>' then
      if buf.isEmpty then '<' :: '>' :: rmTagsGo none rest
      else rmTagsGo none rest
    else rmTagsGo (some (c :: buf)) rest

/-- Models `re.sub(r'<[^>]+>', '', line)`: strip HTML-like inline markup. -/
def removeTags (l : List Char) : List Char := rmTagsGo none l

/-- Consecutive-duplicate removal after the first kept line
(`if line != prev: deduped.append(line); prev = line`). -/
def dedupAfter (prev : List Char) : List (List Char) → List (List Char)
  | [] => []
  | y :: ys => if y == prev then dedupAfter prev ys else y :: dedupAfter y ys

/-- The scripts' duplicate-line collapse over the whole kept-line list. -/
def dedupConsec : List (List Char) → List (List Char)
  | [] => []
  | x :: xs => x :: dedupAfter x xs

/-- One line of `srt_to_text` (`scripts/download_transcripts.py`): strip, then
drop sequence numbers, timestamp lines, cue separators and empties. -/
def processSrtLine (raw : List Char) : Option (List Char) :=
  let line := stripL raw
  if allDigitsL line then none
  else if tsStart line then none
  else if occursInL dashArrow line then none
  else if line.isEmpty then none
  else some line

/-- Function `srt_to_text` from `scripts/download_transcripts.py`: kept lines joined by spaces. -/
def srt_to_text (s : String) : String :=
  String.mk (joinSpace ((splitLines s.toList).filterMap processSrtLine))

def vttHeaderTag : List Char := "WEBVTT".toList
def vttKindTag : List Char := "Kind:".toList
def vttLangTag : List Char := "Language:".toList

/-- One line of `parse_vtt_to_text` (`scripts/sync_youtube_transcripts_to_notion.py`):
strip; drop empties, cue separators, `WEBVTT`/`Kind:`/`Language:` headers and
all-digit cue identifiers; then remove HTML-like tags and drop the line if
nothing remains. -/
def vttLineProcess (raw : List Char) : Option (List Char) :=
  let line := stripL raw
  if line.isEmpty || occursInL dashArrow line || leadsWith vttHeaderTag line ||
      leadsWith vttKindTag line || leadsWith vttLangTag line then none
  else if allDigitsL line then none
  else
    let t := removeTags line
    if t.isEmpty then none else some t

/-- Function `parse_vtt_to_text` from `scripts/sync_youtube_transcripts_to_notion.py`:
kept lines, consecutive duplicates collapsed, joined by spaces. -/
def parse_vtt_to_text (v : String) : String :=
  String.mk (joinSpace (dedupConsec ((splitLines v.toList).filterMap vttLineProcess)))

/-! ## Fuzzy matcher (`scripts/download_transcripts.py`) -/

/-- After `'('` and one digit: consume further digits, then `')'`, returning the rest. -/
def digitsThenParen : List Char → Option (List Char)
  | [] => none
  | c :: rest =>
    if isDigitChar c then digitsThenParen rest
    else if c == ')' then some rest else none

/-- Matches `\(\d+\)` at the head of the list: the remainder after the closing paren. -/
def parenNumRest : List Char → Option (List Char)
  | [] => none
  | c :: rest =>
    if c == '(' then
      match rest with
      | [] => none
      | d :: rest2 => if isDigitChar d then digitsThenParen rest2 else none
    else none

def sfxSrt : List Char := ".srt".toList
def sfxEnUs : List Char := ".en_us".toList
def sfxFinal : List Char := "_final".toList
def litNew : List Char := "(new)".toList
def sfxSubtitles : List Char := "_subtitles".toList
def sfxMp4 : List Char := ".mp4".toList
def sfxMov : List Char := ".mov".toList

/-- One left-to-right pass of
`re.sub(r'\.srt$|\.en_us$|_final$|\(new\)|\(\d+\)|_subtitles$|\.mp4$|\.mov$', '', name)`.
An end-anchored alternative matches only when the rest of the input is exactly
that suffix; `(new)` and `(\d+)` match anywhere; the alternatives are mutually
exclusive at any one position, and on no match the character is kept and the
scan advances one position. -/
def noiseScanGo : Nat → List Char → List Char
  | _, [] => []
  | 0, l => l
  | fuel + 1, c :: rest =>
    if c :: rest = sfxSrt ∨ c :: rest = sfxEnUs ∨ c :: rest = sfxFinal ∨
        c :: rest = sfxSubtitles ∨ c :: rest = sfxMp4 ∨ c :: rest = sfxMov then
      []
    else if leadsWith litNew (c :: rest) then noiseScanGo fuel (rest.drop 4)
    else
      match parenNumRest (c :: rest) with
      | some r => noiseScanGo fuel r
      | none => c :: noiseScanGo fuel rest

/-- One left-to-right pass of the noise-token substitution, with the input's
length as (always sufficient) structural fuel: every step of `noiseScanGo`
consumes at least one character. -/
def noiseScan (l : List Char) : List Char := noiseScanGo l.length l

/-- Models `re.sub(r'[_\-]', ' ', name)`. -/
def sepToSpace (l : List Char) : List Char :=
  l.map (fun c => if c == '_' || c == '-' then ' ' else c)

/-- Worker for `collapseWs`; the flag records whether the previous character was
whitespace already replaced by the single emitted space. -/
def collapseWsGo : Bool → List Char → List Char
  | _, [] => []
  | inRun, c :: rest =>
    if isPySpace c then
      if inRun then collapseWsGo true rest else ' ' :: collapseWsGo true rest
    else c :: collapseWsGo false rest

/-- Models `re.sub(r'\s+', ' ', name)`: collapse every whitespace run to one space. -/
def collapseWs (l : List Char) : List Char := collapseWsGo false l

/-- Python `str.lower()` (ASCII model). -/
def pyLowerStr (s : String) : String := String.mk (s.toList.map Char.toLower)

/-- Function `normalize_name` from `scripts/download_transcripts.py`: lowercase, strip
noise tokens, turn separators into spaces, collapse whitespace, trim. -/
def normalize_name (s : String) : String :=
  String.mk (stripL (collapseWs (sepToSpace (noiseScan (s.toList.map Char.toLower)))))

/-- A catalog entry, with the fields `match_guest` reads. -/
structure Episode where
  episode : String
  guest : String
deriving DecidableEq, Repr

/-- The scan loop of `match_guest`, carrying `best_match` / `best_score`. -/
def matchGo (ratio : String → String → ℚ) (normSrt : String) :
    List Episode → Option Episode → ℚ → Option Episode × ℚ
  | [], best, bestScore => (best, bestScore)
  | ep :: rest, best, bestScore =>
    let guest := pyLowerStr ep.guest
    if guest.isEmpty then matchGo ratio normSrt rest best bestScore
    else if occursIn guest normSrt || occursIn normSrt guest then (some ep, 1)
    else
      let score := ratio normSrt guest
      if bestScore < score ∧ (3 / 5 : ℚ) < score then matchGo ratio normSrt rest (some ep) score
      else matchGo ratio normSrt rest best bestScore

/-- Function `match_guest` from `scripts/download_transcripts.py`, parametric in the
`difflib.SequenceMatcher(None, a, b).ratio()` similarity — an external library
call, modelled as an opaquely-given rational-valued function (`0.6 = 3/5`). -/
def match_guest (ratio : String → String → ℚ) (srtName : String)
    (episodes : List Episode) : Option Episode × ℚ :=
  matchGo ratio (normalize_name srtName) episodes none 0

/-- The immediate-accept ("hit") condition of the `match_guest` scan for one
episode: nonempty lowercased guest name that contains or is contained in the
normalized artifact name. -/
def guestHit (normSrt : String) (ep : Episode) : Bool :=
  !(pyLowerStr ep.guest).isEmpty &&
    (occursIn (pyLowerStr ep.guest) normSrt || occursIn normSrt (pyLowerStr ep.guest))

/-! ## Chunking and block building (both Notion sync scripts) -/

/-- The word-wrap loop shared verbatim by both `add_transcript_to_page`
implementations: flush the current chunk when adding the next word would push
the running length past 1900, else append the word; flush the remainder at the
end if nonempty. -/
def chunkLoop : List (List Char) → List (List Char) → List (List Char) → Nat → List (List Char)
  | [], chunks, cur, _ =>
    if cur.isEmpty then chunks else chunks ++ [joinSpace cur]
  | w :: ws, chunks, cur, curLen =>
    if curLen + w.length + 1 > 1900 then
      chunkLoop ws (chunks ++ [joinSpace cur]) [w] w.length
    else
      chunkLoop ws chunks (cur ++ [w]) (curLen + w.length + 1)

/-- Applies `transcript_text.split()` then the chunking loop. -/
def chunkText (t : List Char) : List (List Char) := chunkLoop (splitWs t) [] [] 0

/-- A workspace-database (Notion) block as the scripts build and read them:
only the fields the code touches are modelled (the `type`, and the `content`
of each element of `rich_text`). -/
inductive NBlock
  | divider
  | heading2 (rich : List String)
  | paragraph (rich : List String)
  | otherBlock
deriving DecidableEq, Repr

def transcriptHeading : String := "📝 Transcript"

/-- The truncation-marker paragraph text of the YouTube sync script. -/
def truncMarker (n : Nat) : String :=
  "[... transcript truncated, " ++ toString n ++ " more paragraphs ...]"

/-- Block list built by `add_transcript_to_page` in
`scripts/sync_youtube_transcripts_to_notion.py`: divider, heading, the first 97
chunks as paragraphs, and an explicit truncation marker when chunks overflow. -/
def ytBlocks (chunks : List (List Char)) : List NBlock :=
  [NBlock.divider, NBlock.heading2 [transcriptHeading]] ++
    (chunks.take 97).map (fun c => NBlock.paragraph [String.mk c]) ++
    (if chunks.length > 97 then [NBlock.paragraph [truncMarker (chunks.length - 97)]] else [])

def add_transcript_to_page_yt (t : String) : List NBlock := ytBlocks (chunkText t.toList)

/-- Block list built by `add_transcript_to_page` in
`scripts/sync_transcripts_to_notion.py`: heading plus the first 100 chunks;
overflow beyond 100 chunks is dropped with no marker. -/
def driveBlocks (chunks : List (List Char)) : List NBlock :=
  NBlock.heading2 [transcriptHeading] ::
    (chunks.take 100).map (fun c => NBlock.paragraph [String.mk c])

def add_transcript_to_page_drive (t : String) : List NBlock :=
  driveBlocks (chunkText t.toList)

/-- The loop body of `check_page_has_transcript`: a `heading_2` block whose
first `rich_text` element's content contains `'Transcript'`. -/
def blockIsTranscriptHeading : NBlock → Bool
  | NBlock.heading2 (t :: _) => occursIn "Transcript" t
  | _ => false

/-- Models `GET /blocks/{page}/children?page_size=20`: the response carries only
the first 20 child blocks of the page. -/
def childrenFirstPage (children : List NBlock) : List NBlock := children.take 20

/-- Function `check_page_has_transcript` from `scripts/sync_youtube_transcripts_to_notion.py`;
the argument is the (possibly failed) response of the children request. -/
def check_page_has_transcript (resp : Option (List NBlock)) : Bool :=
  match resp with
  | none => false
  | some results => results.any blockIsTranscriptHeading

/-! ## Network calls and per-item processing of the two Notion sync scripts -/

/-- The outcome of one HTTP call as the `urllib` layer delivers it:
a payload, an `HTTPError`, or some other exception (connection failure,
timeout, DNS error, ...). -/
inductive NetResult (α : Type)
  | ok (val : α)
  | httpError
  | netExn (msg : String)
deriving DecidableEq, Repr

/-- Function `notion_request` of `scripts/sync_youtube_transcripts_to_notion.py`:
catches `HTTPError` and every other exception, returning `None` for both. -/
def notion_request_yt : NetResult α → Option α
  | NetResult.ok v => some v
  | NetResult.httpError => none
  | NetResult.netExn _ => none

/-- Function `notion_request` of `scripts/sync_transcripts_to_notion.py`:
catches only `HTTPError` (returning `None`); any other exception propagates
to the caller, modelled as `.error`. -/
def notion_request_drive : NetResult α → Except String (Option α)
  | NetResult.ok v => Except.ok (some v)
  | NetResult.httpError => Except.ok none
  | NetResult.netExn m => Except.error m

/-- Externally visible workspace-database calls made while processing one item. -/
inductive Action
  | queryPage (ep : String)
  | readChildren (pageId : String)
  | appendBlocks (pageId : String) (blocks : List NBlock)
deriving DecidableEq, Repr

/-- Tests whether a trace contains a publish (block-append) call. -/
def traceHasAppend (tr : List Action) : Bool :=
  tr.any fun a => match a with
    | Action.appendBlocks _ _ => true
    | _ => false

/-- Function `find_episode_page` (YouTube sync): the query payload is the id of
the first result, `none` when the request failed or `results` was empty. -/
def find_episode_page_yt (r : NetResult (Option String)) : Option String :=
  (notion_request_yt r).join

/-- Function `find_episode_page` (drive sync): same, but an uncaught exception
in `notion_request` propagates. -/
def find_episode_page_drive (r : NetResult (Option String)) : Except String (Option String) :=
  match notion_request_drive r with
  | Except.error m => Except.error m
  | Except.ok data => Except.ok data.join

/-- Progress state of `scripts/sync_youtube_transcripts_to_notion.py`
(`notion_sync_progress.json`). -/
structure YtSyncProgress where
  synced : List String
  failed : List String
  skipped : List String
deriving DecidableEq, Repr

/-- External responses consumed while processing one vtt file in the YouTube
sync: the file read (`none` models a raised read error), the episode-page
query, the children read (payload: the first 20 children of the page, per
`page_size=20`), and the block append. -/
structure YtItemEnv where
  vttContent : Option String
  pageQueryResp : NetResult (Option String)
  childrenResp : NetResult (List NBlock)
  appendResp : NetResult Unit

/-- The per-item loop body of `main` in
`scripts/sync_youtube_transcripts_to_notion.py` (save cadence and rate-limit
sleep elided): returns the updated progress lists and the Notion calls made. -/
def ytProcessItem (env : YtItemEnv) (st : YtSyncProgress) (ep : String) :
    YtSyncProgress × List Action :=
  if ep.isEmpty || !allDigitsL ep.toList then (st, [])
  else
    match env.vttContent with
    | none => ({ st with failed := st.failed ++ [ep] }, [])
    | some vtt =>
      let transcript := parse_vtt_to_text vtt
      if transcript.length < 100 then ({ st with skipped := st.skipped ++ [ep] }, [])
      else
        match find_episode_page_yt env.pageQueryResp with
        | none => ({ st with failed := st.failed ++ [ep] }, [Action.queryPage ep])
        | some pid =>
          if check_page_has_transcript (notion_request_yt env.childrenResp) then
            ({ st with skipped := st.skipped ++ [ep] },
              [Action.queryPage ep, Action.readChildren pid])
          else
            let blocks := add_transcript_to_page_yt transcript
            match notion_request_yt env.appendResp with
            | some _ => ({ st with synced := st.synced ++ [ep] },
                [Action.queryPage ep, Action.readChildren pid, Action.appendBlocks pid blocks])
            | none => ({ st with failed := st.failed ++ [ep] },
                [Action.queryPage ep, Action.readChildren pid, Action.appendBlocks pid blocks])

/-- The union of the three outcome lists, as `main` builds `synced_set`. -/
def processedSet (st : YtSyncProgress) : List String := st.synced ++ st.failed ++ st.skipped

/-- Episode number from a vtt file stem, e.g. `ep1171_xxxxx.en` to `1171`
(`name.split('_')[0][2:]`, guarded by `name.startswith('ep')`). -/
def epFromStem (stem : String) : Option String :=
  if leadsWith "ep".toList stem.toList then
    some (String.mk ((stem.toList.takeWhile (fun c => c ≠ '_')).drop 2))
  else none

/-- The `to_process` construction of `main`: stems parsed to episode numbers,
episodes already in any outcome list filtered out. -/
def ytToProcess (stems : List String) (st : YtSyncProgress) : List String :=
  stems.filterMap fun s =>
    match epFromStem s with
    | some ep => if ep ∈ processedSet st then none else some ep
    | none => none

/-- Sequential processing of the filtered work list. -/
def ytRunLoop (envOf : String → YtItemEnv) : List String → YtSyncProgress →
    YtSyncProgress × List Action
  | [], st => (st, [])
  | ep :: rest, st =>
    let r1 := ytProcessItem (envOf ep) st ep
    let r2 := ytRunLoop envOf rest r1.1
    (r2.1, r1.2 ++ r2.2)

/-- One full run of the YouTube sync `main` over the given vtt stems from
progress state `st`; the returned state is the one persisted at exit. -/
def ytRun (envOf : String → YtItemEnv) (stems : List String) (st : YtSyncProgress) :
    YtSyncProgress × List Action :=
  ytRunLoop envOf (ytToProcess stems st) st

/-- Run counters of `scripts/sync_transcripts_to_notion.py` (`synced`/`failed`). -/
structure DriveSt where
  synced : Nat
  failed : Nat
deriving DecidableEq, Repr

/-- External state consumed while processing one mapping entry in the drive
sync: the transcript file content (`none`: file missing), the page query and
append responses, and — for stating what the script never reads — the actual
child blocks of the target page. -/
structure DriveEnv where
  textContent : Option String
  pageQueryResp : NetResult (Option String)
  appendResp : NetResult Unit
  pageChildren : List NBlock

/-- Python `str.strip()` on strings. -/
def pyStripStr (s : String) : String := String.mk (stripL s.toList)

/-- The per-item loop body of `main` in `scripts/sync_transcripts_to_notion.py`
(rate-limit sleep elided). `.error` models an uncaught exception escaping the
per-item code, which aborts the whole run. -/
def driveProcessItem (env : DriveEnv) (st : DriveSt) (ep : String) :
    Except String (DriveSt × List Action) :=
  match env.textContent with
  | none => Except.ok ({ st with failed := st.failed + 1 }, [])
  | some c =>
    let transcript := pyStripStr c
    if transcript.length < 100 then Except.ok ({ st with failed := st.failed + 1 }, [])
    else
      match find_episode_page_drive env.pageQueryResp with
      | Except.error m => Except.error m
      | Except.ok none => Except.ok ({ st with failed := st.failed + 1 }, [Action.queryPage ep])
      | Except.ok (some pid) =>
        let blocks := add_transcript_to_page_drive transcript
        match notion_request_drive env.appendResp with
        | Except.error m => Except.error m
        | Except.ok (some _) => Except.ok ({ st with synced := st.synced + 1 },
            [Action.queryPage ep, Action.appendBlocks pid blocks])
        | Except.ok none => Except.ok ({ st with failed := st.failed + 1 },
            [Action.queryPage ep, Action.appendBlocks pid blocks])

/-- Sequential processing of the drive sync's mapping entries; the first
uncaught exception aborts the remainder of the run. -/
def driveRun : List (String × DriveEnv) → DriveSt → Except String (DriveSt × List Action)
  | [], st => Except.ok (st, [])
  | (ep, env) :: rest, st =>
    match driveProcessItem env st ep with
    | Except.error m => Except.error m
    | Except.ok (st1, as1) =>
      match driveRun rest st1 with
      | Except.error m => Except.error m
      | Except.ok (st2, as2) => Except.ok (st2, as1 ++ as2)

/-- Tests whether a drive-sync item result completed normally and appended blocks. -/
def runResultHasAppend : Except String (DriveSt × List Action) → Bool
  | Except.ok (_, tr) => traceHasAppend tr
  | Except.error _ => false

/-- Tests that an `Except` computation did not abort. -/
def runOk : Except String α → Bool
  | Except.ok _ => true
  | Except.error _ => false

/-- Tests that none of the item's HTTP calls raises a non-HTTP exception. -/
def driveEnvNoExn (env : DriveEnv) : Bool :=
  (match env.pageQueryResp with
    | NetResult.netExn _ => false
    | _ => true) &&
  (match env.appendResp with
    | NetResult.netExn _ => false
    | _ => true)

/-! ## AssemblyAI transcription (`scripts/assemblyai_transcribe.py`) -/

/-- Progress state persisted to `assemblyai_progress.json`: `completed`
episodes, `failed` episode/error pairs, and the `pending` episode-to-job-id
object (an assoc list with unique keys, as a JSON object). -/
structure AaiProgress where
  completed : List String
  failed : List (String × String)
  pending : List (String × String)
deriving DecidableEq, Repr

/-- Lookup in the `pending` JSON object (`progress["pending"][episode_num]`,
with `in`-test); keys are unique, first match wins. -/
def lookupPending : List (String × String) → String → Option String
  | [], _ => none
  | kv :: rest, ep => if kv.1 == ep then some kv.2 else lookupPending rest ep

/-- Dict assignment `progress["pending"][episode_num] = transcript_id`:
replace the entry in place, or append when absent. -/
def setPending : List (String × String) → String → String → List (String × String)
  | [], ep, tid => [(ep, tid)]
  | kv :: rest, ep, tid =>
    if kv.1 == ep then (ep, tid) :: rest else kv :: setPending rest ep tid

/-- Dict removal `progress["pending"].pop(episode_num, None)`. -/
def popPending : List (String × String) → String → List (String × String)
  | [], _ => []
  | kv :: rest, ep => if kv.1 == ep then popPending rest ep else kv :: popPending rest ep

/-- Terminal behaviour of the bounded polling loop `poll_transcription` for one
job: completion within the 600 s ceiling, a service-reported `error` status
(raised as an exception), or the ceiling elapsing (also raised). -/
inductive PollRes
  | done
  | srvError (msg : String)
  | timedOut
deriving DecidableEq, Repr

/-- External behaviour consumed by `transcribe_episode` for one episode. -/
structure TEnv where
  outputFileExists : Bool
  audioUrl : Option String
  submitResp : Option String
  pollResp : PollRes

/-- Durable writes and service calls made by `transcribe_episode`. -/
inductive AaiAction
  | submitJob (transcriptId : String)
  | saveProgressFile (p : AaiProgress)
  | pollJob (transcriptId : String)
  | writeTranscriptFiles (ep : String)
deriving DecidableEq, Repr

/-- The `except` branch of `transcribe_episode`: append to `failed`, drop the
pending entry, save. -/
def aaiFail (p : AaiProgress) (ep msg : String) : AaiProgress :=
  { p with failed := p.failed ++ [(ep, msg)], pending := popPending p.pending ep }

/-- Everything after a job id is at hand in `transcribe_episode`: poll, then on
completion write the transcript files and record `completed`, and on a raised
error or timeout record `failed` and drop the pending entry.  `acc` is the
action trace accumulated before polling. -/
def pollPhase (env : TEnv) (ep tid : String) (p : AaiProgress) (acc : List AaiAction) :
    AaiProgress × List AaiAction × Bool :=
  match env.pollResp with
  | PollRes.done =>
    let p2 := { p with completed := p.completed ++ [ep], pending := popPending p.pending ep }
    (p2, acc ++ [AaiAction.pollJob tid, AaiAction.writeTranscriptFiles ep,
      AaiAction.saveProgressFile p2], true)
  | PollRes.srvError m =>
    let p2 := aaiFail p ep ("Transcription failed: " ++ m)
    (p2, acc ++ [AaiAction.pollJob tid, AaiAction.saveProgressFile p2], false)
  | PollRes.timedOut =>
    let p2 := aaiFail p ep "Transcription timed out after 600s"
    (p2, acc ++ [AaiAction.pollJob tid, AaiAction.saveProgressFile p2], false)

/-- Function `transcribe_episode` from `scripts/assemblyai_transcribe.py`:
skip if the output file exists or the episode is recorded completed; resume a
recorded pending job id without resubmitting; otherwise resolve the audio URL,
submit, record the job id as pending and save before polling.  (The error
strings of the two pre-submission failures stand for the raised exceptions'
messages, whose exact text the environment supplies.) -/
def transcribe_episode (env : TEnv) (ep : String) (p : AaiProgress) :
    AaiProgress × List AaiAction × Bool :=
  if env.outputFileExists then (p, [], true)
  else if ep ∈ p.completed then (p, [], true)
  else
    match lookupPending p.pending ep with
    | some tid => pollPhase env ep tid p []
    | none =>
      match env.audioUrl with
      | none =>
        let p1 := aaiFail p ep "Failed to get audio URL"
        (p1, [AaiAction.saveProgressFile p1], false)
      | some _ =>
        match env.submitResp with
        | none =>
          let p1 := aaiFail p ep "submit request failed"
          (p1, [AaiAction.saveProgressFile p1], false)
        | some tid =>
          let p1 := { p with pending := setPending p.pending ep tid }
          pollPhase env ep tid p1 [AaiAction.submitJob tid, AaiAction.saveProgressFile p1]

/-! ## Caption download (`scripts/pull_youtube_captions.py`) -/

/-- Progress state persisted to `caption_progress.json`. -/
structure CaptionProgress where
  completed : List String
  failed : List String
  no_captions : List String
deriving DecidableEq, Repr

/-- The string results `download_captions` can return. -/
inductive DlResult
  | success
  | alreadyExists
  | noCaptions
  | dlFailed
  | dlTimeout
deriving DecidableEq, Repr

/-- The recording step of `main`'s loop in `scripts/pull_youtube_captions.py`:
`"success"`/`"exists"` go to `completed`, `"no_captions"` to `no_captions`,
and anything else — including `"timeout"` — to `failed`. -/
def recordCaptionResult (p : CaptionProgress) (yt : String) : DlResult → CaptionProgress
  | DlResult.success => { p with completed := p.completed ++ [yt] }
  | DlResult.alreadyExists => { p with completed := p.completed ++ [yt] }
  | DlResult.noCaptions => { p with no_captions := p.no_captions ++ [yt] }
  | DlResult.dlFailed => { p with failed := p.failed ++ [yt] }
  | DlResult.dlTimeout => { p with failed := p.failed ++ [yt] }

/-! ## Progress-file persistence (`save_progress` in both ledger scripts) -/

/-- A whole-file filesystem operation as a saver would issue it.  The type `σ`
stands for the serialized progress snapshot (`json.dumps` elided, as it is
invertible and irrelevant to atomicity). -/
inductive FsOp (σ : Type)
  | writeWhole (path : String) (state : σ)
  | writeTemp (path : String) (state : σ)
  | renameOver (tmpPath targetPath : String)
deriving DecidableEq, Repr

/-- What a crash or concurrent reader can observe of the file at `target`. -/
inductive WriteView (σ : Type)
  | torn
  | complete (state : σ)
  | renamedComplete
deriving DecidableEq, Repr

/-- Observable states of the file at `target` while the operations execute:
a `writeWhole` to the target (`open(path,'w')` / `Path.write_text`) first
truncates and partially writes — observable `torn` — and then is complete;
a `writeTemp` never touches the target; a rename onto the target is atomic,
old or new but never torn. -/
def crashObservations (target : String) : List (FsOp σ) → List (WriteView σ)
  | [] => []
  | FsOp.writeWhole p s :: rest =>
    (if p = target then [WriteView.torn, WriteView.complete s] else []) ++
      crashObservations target rest
  | FsOp.writeTemp _ _ :: rest => crashObservations target rest
  | FsOp.renameOver _ p :: rest =>
    (if p = target then [WriteView.renamedComplete] else []) ++ crashObservations target rest

def aaiProgressPath : String := "scripts/assemblyai_progress.json"

/-- Function `save_progress` in `scripts/assemblyai_transcribe.py`:
`PROGRESS_FILE.write_text(json.dumps(progress, indent=2))` — a single direct
whole-file write to the progress file. -/
def save_progress_aai (p : AaiProgress) : List (FsOp AaiProgress) :=
  [FsOp.writeWhole aaiProgressPath p]

def captionProgressPath : String := "scripts/caption_progress.json"

/-- Function `save_progress` in `scripts/pull_youtube_captions.py`:
`open(PROGRESS_FILE, 'w')` then `json.dump(progress, f)` — likewise a single
direct whole-file write. -/
def save_progress_captions (p : CaptionProgress) : List (FsOp CaptionProgress) :=
  [FsOp.writeWhole captionProgressPath p]

/-- Modelled from the spec: the write-to-temp-then-rename save that the spec's
`save()` contract describes ("write goes to a temporary file that is then
renamed over the target"); no such code exists in the repository. -/
def atomicReplaceSave (targetPath : String) (p : σ) : List (FsOp σ) :=
  [FsOp.writeTemp (targetPath ++ ".tmp") p, FsOp.renameOver (targetPath ++ ".tmp") targetPath]

/-! ## Helper lemmas -/

theorem blockIsTranscriptHeading_iff (b : NBlock) :
    blockIsTranscriptHeading b = true ↔
      ∃ t ts, b = NBlock.heading2 (t :: ts) ∧ occursIn "Transcript" t = true := by
  cases b with
  | divider => simp [blockIsTranscriptHeading]
  | otherBlock => simp [blockIsTranscriptHeading]
  | paragraph rich => simp [blockIsTranscriptHeading]
  | heading2 rich =>
    cases rich with
    | nil => simp [blockIsTranscriptHeading]
    | cons t ts =>
      simp only [blockIsTranscriptHeading]
      constructor
      · intro h; exact ⟨t, ts, rfl, h⟩
      · rintro ⟨t', ts', heq, h⟩
        injection heq with h2
        injection h2 with ht hts
        rw [ht]; exact h

theorem lookupPending_popPending (p : List (String × String)) (ep : String) :
    lookupPending (popPending p ep) ep = none := by
  induction p with
  | nil => rfl
  | cons kv rest ih =>
    by_cases h : kv.1 == ep
    · simp [popPending, h, ih]
    · simp [popPending, lookupPending, h, ih]

theorem lookupPending_setPending (p : List (String × String)) (ep tid : String) :
    lookupPending (setPending p ep tid) ep = some tid := by
  induction p with
  | nil => simp [setPending, lookupPending]
  | cons kv rest ih =>
    by_cases h : kv.1 == ep
    · simp [setPending, h, lookupPending]
    · simp [setPending, lookupPending, h, ih]

theorem splitWsGo_nospace (acc l : List Char) (h : ∀ c ∈ l, isPySpace c = false) :
    splitWsGo acc l = if (acc.reverse ++ l).isEmpty then [] else [acc.reverse ++ l] := by
  induction l generalizing acc with
  | nil => simp [splitWsGo]
  | cons c rest ih =>
    have hc : isPySpace c = false := h c (by simp)
    rw [splitWsGo, hc]
    simp only [Bool.false_eq_true, if_false]
    rw [ih (c :: acc) (fun d hd => h d (by simp [hd]))]
    simp

theorem splitWs_nospace (l : List Char) (h : ∀ c ∈ l, isPySpace c = false) (hne : l ≠ []) :
    splitWs l = [l] := by
  rw [splitWs, splitWsGo_nospace [] l h]
  simp [hne]

theorem chunkLoop_single_long (w : List Char) (hlen : 1900 ≤ w.length) :
    chunkLoop [w] [] [] 0 = [[], w] := by
  rw [chunkLoop, if_pos (by omega)]
  rw [chunkLoop]
  norm_num [joinSpace]

theorem joinSpace_append_single (cur : List (List Char)) (w : List Char) :
    (joinSpace (cur ++ [w])).length ≤ (joinSpace cur).length + w.length + 1 := by
  induction cur with
  | nil => simp [joinSpace]
  | cons x cur ih =>
    cases cur with
    | nil => simp [joinSpace]; omega
    | cons y cur2 =>
      rw [show (x :: y :: cur2) ++ [w] = x :: ((y :: cur2) ++ [w]) from rfl]
      rw [show joinSpace (x :: ((y :: cur2) ++ [w])) =
        x ++ ' ' :: joinSpace ((y :: cur2) ++ [w]) from rfl]
      rw [show joinSpace (x :: y :: cur2) = x ++ ' ' :: joinSpace (y :: cur2) from rfl]
      simp only [List.length_append, List.length_cons]
      have h3 := ih
      omega

theorem chunkLoop_length_bound (ws : List (List Char)) (chunks cur : List (List Char))
    (curLen : Nat)
    (hws : ∀ w ∈ ws, w.length < 1900)
    (hchunks : ∀ c ∈ chunks, c.length ≤ 1900)
    (hcur : (joinSpace cur).length ≤ curLen)
    (hlen : curLen ≤ 1900) :
    ∀ c ∈ chunkLoop ws chunks cur curLen, c.length ≤ 1900 := by
  induction ws generalizing chunks cur curLen with
  | nil =>
    intro c hc
    rw [chunkLoop] at hc
    by_cases hcy : cur.isEmpty
    · rw [if_pos hcy] at hc
      exact hchunks c hc
    · rw [if_neg hcy] at hc
      rcases List.mem_append.1 hc with hc | hc
      · exact hchunks c hc
      · simp at hc; subst hc; exact le_trans hcur hlen
  | cons w ws ih =>
    intro c hc
    rw [chunkLoop] at hc
    by_cases hflush : curLen + w.length + 1 > 1900
    · rw [if_pos hflush] at hc
      refine ih (chunks ++ [joinSpace cur]) [w] w.length
        (fun x hx => hws x (by simp [hx])) ?_ ?_ ?_ c hc
      · intro x hx
        rcases List.mem_append.1 hx with hx | hx
        · exact hchunks x hx
        · simp at hx; subst hx; exact le_trans hcur hlen
      · simp [joinSpace]
      · exact le_of_lt (hws w (by simp))
    · rw [if_neg hflush] at hc
      refine ih chunks (cur ++ [w]) (curLen + w.length + 1)
        (fun x hx => hws x (by simp [hx])) hchunks ?_ ?_ c hc
      · have := joinSpace_append_single cur w
        omega
      · omega

theorem guestHit_false_parts (normSrt : String) (e : Episode)
    (hfalse : guestHit normSrt e = false)
    (he : (pyLowerStr e.guest).isEmpty = false) :
    (occursIn (pyLowerStr e.guest) normSrt || occursIn normSrt (pyLowerStr e.guest)) = false := by
  unfold guestHit at hfalse
  rw [he] at hfalse
  simpa using hfalse

theorem matchGo_find_hit (ratio : String → String → ℚ) (normSrt : String) :
    ∀ (eps : List Episode) (ep : Episode),
      eps.find? (guestHit normSrt) = some ep →
      ∀ best bs, matchGo ratio normSrt eps best bs = (some ep, 1) := by
  intro eps
  induction eps with
  | nil => intro ep h; simp at h
  | cons e rest ih =>
    intro ep h best bs
    by_cases hh : guestHit normSrt e = true
    · rw [List.find?_cons_of_pos _ hh] at h
      injection h with h; subst h
      have hand := hh
      unfold guestHit at hand
      rw [Bool.and_eq_true] at hand
      obtain ⟨h1, h2⟩ := hand
      rw [Bool.not_eq_true'] at h1
      rw [matchGo]
      rw [if_neg (by rw [h1]; exact Bool.false_ne_true)]
      rw [if_pos h2]
    · rw [List.find?_cons_of_neg _ hh] at h
      have hfalse : guestHit normSrt e = false := by
        rw [Bool.not_eq_true] at hh; exact hh
      rw [matchGo]
      by_cases he : (pyLowerStr e.guest).isEmpty = true
      · rw [if_pos he]
        exact ih ep h best bs
      · have he2 : (pyLowerStr e.guest).isEmpty = false := by
          rwa [Bool.not_eq_true] at he
        have horb := guestHit_false_parts normSrt e hfalse he2
        rw [if_neg he]
        rw [if_neg (by rw [horb]; exact Bool.false_ne_true)]
        show (if bs < ratio normSrt (pyLowerStr e.guest) ∧
              (3 / 5 : ℚ) < ratio normSrt (pyLowerStr e.guest)
            then matchGo ratio normSrt rest (some e) (ratio normSrt (pyLowerStr e.guest))
            else matchGo ratio normSrt rest best bs) = (some ep, 1)
        split
        · exact ih ep h _ _
        · exact ih ep h _ _

theorem matchGo_no_hit_max (ratio : String → String → ℚ) (normSrt : String) :
    ∀ (eps : List Episode) (best : Option Episode) (bs : ℚ),
      (∀ e ∈ eps, guestHit normSrt e = false) →
      ∀ b' s', matchGo ratio normSrt eps best bs = (b', s') →
        bs ≤ s' ∧
        ((b' = best ∧ s' = bs) ∨
          ∃ e ∈ eps, b' = some e ∧ s' = ratio normSrt (pyLowerStr e.guest) ∧ (3 / 5 : ℚ) < s') ∧
        (∀ e ∈ eps, (pyLowerStr e.guest).isEmpty = false →
          ratio normSrt (pyLowerStr e.guest) ≤ s' ∨ ratio normSrt (pyLowerStr e.guest) ≤ 3 / 5) := by
  intro eps
  induction eps with
  | nil =>
    intro best bs hno b' s' hm
    rw [matchGo] at hm
    injection hm with hb hs
    subst hb; subst hs
    exact ⟨le_refl _, Or.inl ⟨rfl, rfl⟩, by simp⟩
  | cons e rest ih =>
    intro best bs hno b' s' hm
    rw [matchGo] at hm
    by_cases he : (pyLowerStr e.guest).isEmpty = true
    · rw [if_pos he] at hm
      obtain ⟨ha, hb, hc⟩ := ih best bs (fun x hx => hno x (by simp [hx])) b' s' hm
      refine ⟨ha, ?_, ?_⟩
      · rcases hb with hb | ⟨x, hx, hxx⟩
        · exact Or.inl hb
        · exact Or.inr ⟨x, by simp [hx], hxx⟩
      · intro x hx hxe
        rcases List.mem_cons.1 hx with hx | hx
        · subst hx; rw [he] at hxe; cases hxe
        · exact hc x hx hxe
    · have he2 : (pyLowerStr e.guest).isEmpty = false := by rwa [Bool.not_eq_true] at he
      have horb := guestHit_false_parts normSrt e (hno e (by simp)) he2
      rw [if_neg he] at hm
      rw [if_neg (by rw [horb]; exact Bool.false_ne_true)] at hm
      rw [show (let score := ratio normSrt (pyLowerStr e.guest);
          if bs < score ∧ (3 / 5 : ℚ) < score then matchGo ratio normSrt rest (some e) score
          else matchGo ratio normSrt rest best bs) =
          (if bs < ratio normSrt (pyLowerStr e.guest) ∧
              (3 / 5 : ℚ) < ratio normSrt (pyLowerStr e.guest)
          then matchGo ratio normSrt rest (some e) (ratio normSrt (pyLowerStr e.guest))
          else matchGo ratio normSrt rest best bs) from rfl] at hm
      by_cases hsc : bs < ratio normSrt (pyLowerStr e.guest) ∧
          (3 / 5 : ℚ) < ratio normSrt (pyLowerStr e.guest)
      · rw [if_pos hsc] at hm
        obtain ⟨ha, hb, hc⟩ := ih (some e) (ratio normSrt (pyLowerStr e.guest))
          (fun x hx => hno x (by simp [hx])) b' s' hm
        refine ⟨le_trans (le_of_lt hsc.1) ha, ?_, ?_⟩
        · rcases hb with ⟨hb1, hb2⟩ | ⟨x, hx, hxx⟩
          · exact Or.inr ⟨e, by simp, hb1, hb2.symm ▸ hb2 ▸ rfl, by rw [hb2]; exact hsc.2⟩
          · exact Or.inr ⟨x, by simp [hx], hxx⟩
        · intro x hx hxe
          rcases List.mem_cons.1 hx with hx | hx
          · subst hx; exact Or.inl ha
          · exact hc x hx hxe
      · rw [if_neg hsc] at hm
        obtain ⟨ha, hb, hc⟩ := ih best bs (fun x hx => hno x (by simp [hx])) b' s' hm
        refine ⟨ha, ?_, ?_⟩
        · rcases hb with hb | ⟨x, hx, hxx⟩
          · exact Or.inl hb
          · exact Or.inr ⟨x, by simp [hx], hxx⟩
        · intro x hx hxe
          rcases List.mem_cons.1 hx with hx | hx
          · subst hx
            rcases not_and_or.1 hsc with hsc | hsc
            · exact Or.inl (le_trans (le_of_not_lt hsc) ha)
            · exact Or.inr (le_of_not_lt hsc)
          · exact hc x hx hxe

theorem dropWhile_isSuffix (p : Char → Bool) (l : List Char) :
    ∃ u, l = u ++ l.dropWhile p := by
  induction l with
  | nil => exact ⟨[], rfl⟩
  | cons a l ih =>
    by_cases h : p a
    · obtain ⟨u, hu⟩ := ih
      refine ⟨a :: u, ?_⟩
      rw [List.dropWhile_cons_of_pos h]
      rw [List.cons_append, ← hu]
    · exact ⟨[], by rw [List.dropWhile_cons_of_neg h]; rfl⟩

theorem head_dropWhile_false (p : Char → Bool) (l : List Char) (a : Char) (t : List Char)
    (h : l.dropWhile p = a :: t) : p a = false := by
  induction l with
  | nil => simp at h
  | cons c l ih =>
    by_cases hc : p c
    · rw [List.dropWhile_cons_of_pos hc] at h
      exact ih h
    · rw [List.dropWhile_cons_of_neg hc] at h
      injection h with h1 _
      subst h1
      simpa using hc

theorem stripL_head_false (l : List Char) (a : Char) (t : List Char)
    (h : stripL l = a :: t) : isPySpace a = false := by
  unfold stripL at h
  have h2 : ((l.dropWhile isPySpace).reverse.dropWhile isPySpace) = (a :: t).reverse := by
    rw [← h, List.reverse_reverse]
  obtain ⟨u, hu⟩ := dropWhile_isSuffix isPySpace (l.dropWhile isPySpace).reverse
  rw [h2] at hu
  have h3 : l.dropWhile isPySpace = (a :: t) ++ u.reverse := by
    have h4 := congrArg List.reverse hu
    rw [List.reverse_reverse, List.reverse_append, List.reverse_reverse] at h4
    exact h4
  rw [List.cons_append] at h3
  exact head_dropWhile_false isPySpace l a _ h3

theorem stripL_reverse_head_false (l : List Char) (a : Char) (t : List Char)
    (h : (stripL l).reverse = a :: t) : isPySpace a = false := by
  unfold stripL at h
  rw [List.reverse_reverse] at h
  exact head_dropWhile_false isPySpace _ a _ h

theorem stripL_noop (l : List Char)
    (hhead : ∀ a t, l = a :: t → isPySpace a = false)
    (hlast : ∀ a t, l.reverse = a :: t → isPySpace a = false) :
    stripL l = l := by
  cases l with
  | nil => rfl
  | cons a t =>
    unfold stripL
    rw [List.dropWhile_cons_of_neg (by rw [hhead a t rfl]; exact Bool.false_ne_true)]
    cases hr : (a :: t).reverse with
    | nil => exact absurd (congrArg List.length hr) (by simp)
    | cons b u =>
      rw [List.dropWhile_cons_of_neg (by rw [hlast b u hr]; exact Bool.false_ne_true)]
      rw [← hr, List.reverse_reverse]

theorem stripL_idem (l : List Char) : stripL (stripL l) = stripL l := by
  apply stripL_noop
  · intro a t h; exact stripL_head_false l a t h
  · intro a t h; exact stripL_reverse_head_false l a t h


theorem isPySpace_space : isPySpace ' ' = true := rfl
theorem isDigitChar_space : isDigitChar ' ' = false := rfl
theorem space_ne_colon : (' ' == ':') = false := rfl

theorem tsStart_cons_space (r : List Char) (k0 : List Char) (hk : tsStart k0 = false) :
    tsStart (k0 ++ ' ' :: r) = false := by
  rcases k0 with _ | ⟨a, _ | ⟨b, _ | ⟨c, _ | ⟨d, _ | ⟨e, _ | ⟨f, _ | ⟨g, _ | ⟨h, t⟩⟩⟩⟩⟩⟩⟩⟩
  · rcases r with _ | ⟨x1, _ | ⟨x2, _ | ⟨x3, _ | ⟨x4, _ | ⟨x5, _ | ⟨x6, _ | ⟨x7, t⟩⟩⟩⟩⟩⟩⟩ <;>
      simp [tsStart, isDigitChar_space]
  · rcases r with _ | ⟨x1, _ | ⟨x2, _ | ⟨x3, _ | ⟨x4, _ | ⟨x5, _ | ⟨x6, t⟩⟩⟩⟩⟩⟩ <;>
      simp [tsStart, isDigitChar_space]
  · rcases r with _ | ⟨x1, _ | ⟨x2, _ | ⟨x3, _ | ⟨x4, _ | ⟨x5, t⟩⟩⟩⟩⟩ <;>
      simp [tsStart, space_ne_colon]
  · rcases r with _ | ⟨x1, _ | ⟨x2, _ | ⟨x3, _ | ⟨x4, t⟩⟩⟩⟩ <;>
      simp [tsStart, isDigitChar_space]
  · rcases r with _ | ⟨x1, _ | ⟨x2, _ | ⟨x3, t⟩⟩⟩ <;>
      simp [tsStart, isDigitChar_space]
  · rcases r with _ | ⟨x1, _ | ⟨x2, t⟩⟩ <;>
      simp [tsStart, space_ne_colon]
  · rcases r with _ | ⟨x1, t⟩ <;>
      simp [tsStart, isDigitChar_space]
  · simp [tsStart, isDigitChar_space]
  · simpa [tsStart] using hk

theorem leadsWith_through_space (p y : List Char) :
    ∀ x, ' ' ∉ p → leadsWith p (x ++ ' ' :: y) = true → leadsWith p x = true := by
  induction p with
  | nil => intro x _ _; rfl
  | cons q p ih =>
    intro x hsp h
    cases x with
    | nil =>
      rw [List.nil_append, leadsWith, Bool.and_eq_true] at h
      have hq : q = ' ' := by simpa using h.1
      exact absurd (hq ▸ List.mem_cons_self q p) hsp
    | cons c x =>
      rw [List.cons_append, leadsWith, Bool.and_eq_true] at h
      rw [leadsWith, Bool.and_eq_true]
      exact ⟨h.1, ih x (fun hm => hsp (List.mem_cons_of_mem q hm)) h.2⟩

theorem occursInL_through_space (p x y : List Char) (hsp : ' ' ∉ p) (hpne : p ≠ [])
    (h : occursInL p (x ++ ' ' :: y) = true) :
    occursInL p x = true ∨ occursInL p y = true := by
  induction x with
  | nil =>
    rw [List.nil_append, occursInL, Bool.or_eq_true] at h
    rcases h with h | h
    · cases p with
      | nil => exact absurd rfl hpne
      | cons q p =>
        rw [leadsWith, Bool.and_eq_true] at h
        have : q = ' ' := by simpa using h.1
        exact absurd (this ▸ List.mem_cons_self q p) hsp
    · exact Or.inr h
  | cons c x ih =>
    rw [List.cons_append, occursInL, Bool.or_eq_true] at h
    rcases h with h | h
    · have hl := leadsWith_through_space p y (c :: x) hsp (by rwa [List.cons_append])
      exact Or.inl (by rw [occursInL, hl, Bool.true_or])
    · rcases ih h with h | h
      · exact Or.inl (by rw [occursInL, h, Bool.or_true])
      · exact Or.inr h

theorem splitLines_no_newline (l : List Char) :
    ∀ raw ∈ splitLines l, '\n' ∉ raw := by
  induction l with
  | nil => intro raw hr; simp [splitLines] at hr; simp [hr]
  | cons c rest ih =>
    intro raw hr
    rw [splitLines] at hr
    by_cases hc : c == '\n'
    · rw [if_pos hc] at hr
      rcases List.mem_cons.1 hr with hr | hr
      · simp [hr]
      · exact ih raw hr
    · rw [if_neg hc] at hr
      have hcn : c ≠ '\n' := by simpa using hc
      rcases hsp2 : splitLines rest with _ | ⟨l0, ls⟩
      · rw [hsp2] at hr
        simp at hr
        subst hr
        simp [Ne.symm hcn]
      · rw [hsp2] at hr
        rcases List.mem_cons.1 hr with hr | hr
        · subst hr
          intro hmem
          rcases List.mem_cons.1 hmem with hm | hm
          · exact hcn hm.symm
          · exact ih l0 (by rw [hsp2]; exact List.mem_cons_self l0 ls) hm
        · exact ih raw (by rw [hsp2]; exact List.mem_cons_of_mem l0 hr)

theorem splitLines_single (l : List Char) (h : '\n' ∉ l) : splitLines l = [l] := by
  induction l with
  | nil => rfl
  | cons c rest ih =>
    rw [splitLines]
    have hc : (c == '\n') = false := by
      simp only [beq_eq_false_iff_ne, ne_eq]
      intro hcc
      exact h (hcc ▸ List.mem_cons_self c rest)
    rw [hc]
    simp only [Bool.false_eq_true, if_false]
    rw [ih (fun hm => h (List.mem_cons_of_mem c hm))]


theorem mem_stripL (l : List Char) (x : Char) (hx : x ∈ stripL l) : x ∈ l := by
  unfold stripL at hx
  rw [List.mem_reverse] at hx
  have hx2 := (List.dropWhile_sublist (l := (l.dropWhile isPySpace).reverse)
    (p := isPySpace)).subset hx
  rw [List.mem_reverse] at hx2
  exact (List.dropWhile_sublist (l := l) (p := isPySpace)).subset hx2

theorem mem_joinSpace (ks : List (List Char)) (x : Char) (hx : x ∈ joinSpace ks) :
    x = ' ' ∨ ∃ k ∈ ks, x ∈ k := by
  induction ks with
  | nil => simp [joinSpace] at hx
  | cons k ks ih =>
    cases ks with
    | nil => exact Or.inr ⟨k, by simp, by simpa [joinSpace] using hx⟩
    | cons k2 ks2 =>
      rw [show joinSpace (k :: k2 :: ks2) = k ++ ' ' :: joinSpace (k2 :: ks2) from rfl] at hx
      rcases List.mem_append.1 hx with hx | hx
      · exact Or.inr ⟨k, by simp, hx⟩
      · rcases List.mem_cons.1 hx with hx | hx
        · exact Or.inl hx
        · rcases ih hx with h | ⟨k3, hk3, hx3⟩
          · exact Or.inl h
          · exact Or.inr ⟨k3, by simp [hk3], hx3⟩

theorem allDigitsL_false_of_mem (l : List Char) (x : Char) (hx : x ∈ l)
    (hd : isDigitChar x = false) : allDigitsL l = false := by
  unfold allDigitsL
  have hall : l.all isDigitChar = false := by
    rcases hall : l.all isDigitChar with _ | _
    · rfl
    · rw [List.all_eq_true] at hall
      rw [hall x hx] at hd
      cases hd
  rw [hall, Bool.and_false]

theorem occursIn_dashArrow_join_false (ks : List (List Char))
    (hk : ∀ k ∈ ks, occursInL dashArrow k = false) :
    occursInL dashArrow (joinSpace ks) = false := by
  induction ks with
  | nil => rfl
  | cons k ks ih =>
    cases ks with
    | nil => simpa [joinSpace] using hk k (by simp)
    | cons k2 ks2 =>
      rw [show joinSpace (k :: k2 :: ks2) = k ++ ' ' :: joinSpace (k2 :: ks2) from rfl]
      rcases hoc : occursInL dashArrow (k ++ ' ' :: joinSpace (k2 :: ks2)) with _ | _
      · rfl
      · exfalso
        rcases occursInL_through_space dashArrow k (joinSpace (k2 :: ks2))
            (by decide) (by decide) hoc with h | h
        · rw [hk k (by simp)] at h; cases h
        · rw [ih (fun x hx => hk x (by simp [hx]))] at h; cases h

theorem joinSpace_head (k : List Char) (ks : List (List Char)) (a : Char) (t : List Char)
    (hk : k = a :: t) : ∃ t2, joinSpace (k :: ks) = a :: t2 := by
  cases ks with
  | nil => exact ⟨t, by simp [joinSpace, hk]⟩
  | cons k2 ks2 =>
    refine ⟨t ++ ' ' :: joinSpace (k2 :: ks2), ?_⟩
    rw [show joinSpace (k :: k2 :: ks2) = k ++ ' ' :: joinSpace (k2 :: ks2) from rfl, hk]
    rfl

theorem joinSpace_concat_reverse (ks : List (List Char)) (k : List Char) :
    ∃ w, (joinSpace (ks ++ [k])).reverse = k.reverse ++ w := by
  induction ks with
  | nil => exact ⟨[], by simp [joinSpace]⟩
  | cons x ks ih =>
    obtain ⟨w, hw⟩ := ih
    rcases hks : ks ++ [k] with _ | ⟨k2, ks2⟩
    · exact absurd (congrArg List.length hks) (by simp)
    · refine ⟨w ++ [' '] ++ x.reverse, ?_⟩
      rw [show (x :: ks) ++ [k] = x :: (ks ++ [k]) from rfl, hks]
      rw [show joinSpace (x :: k2 :: ks2) = x ++ ' ' :: joinSpace (k2 :: ks2) from rfl]
      rw [← hks]
      rw [List.reverse_append, List.reverse_cons, hw]
      simp [List.append_assoc]

theorem processSrtLine_spec (raw k : List Char) (h : processSrtLine raw = some k) :
    k = stripL raw ∧ allDigitsL k = false ∧ tsStart k = false ∧
      occursInL dashArrow k = false ∧ k ≠ [] := by
  have h0 : (if allDigitsL (stripL raw) = true then none
      else if tsStart (stripL raw) = true then none
      else if occursInL dashArrow (stripL raw) = true then none
      else if (stripL raw).isEmpty = true then none
      else some (stripL raw) : Option (List Char)) = some k := h
  clear h
  split_ifs at h0 with h1 h2 h3 h4
  injection h0 with h
  subst h
  refine ⟨rfl, by simpa using h1, by simpa using h2, by simpa using h3, ?_⟩
  intro hnil
  rw [hnil] at h4
  exact h4 rfl

theorem srt_kept_spec (l : List Char) :
    ∀ k ∈ (splitLines l).filterMap processSrtLine,
      stripL k = k ∧ allDigitsL k = false ∧ tsStart k = false ∧
      occursInL dashArrow k = false ∧ k ≠ [] ∧ '\n' ∉ k := by
  intro k hk
  rw [List.mem_filterMap] at hk
  obtain ⟨raw, hraw, hp⟩ := hk
  obtain ⟨hkdef, h2, h3, h4, h5⟩ := processSrtLine_spec raw k hp
  refine ⟨by rw [hkdef]; exact stripL_idem raw, h2, h3, h4, h5, ?_⟩
  intro hn
  exact splitLines_no_newline l raw hraw (mem_stripL raw '\n' (hkdef ▸ hn))


theorem srt_out_facts (k0 : List Char) (ks' : List (List Char))
    (hspec : ∀ k ∈ k0 :: ks', stripL k = k ∧ allDigitsL k = false ∧ tsStart k = false ∧
      occursInL dashArrow k = false ∧ k ≠ [] ∧ '\n' ∉ k) :
    processSrtLine (joinSpace (k0 :: ks')) = some (joinSpace (k0 :: ks')) ∧
    '\n' ∉ joinSpace (k0 :: ks') := by
  obtain ⟨hs0, hd0, ht0, ha0, hn0, hl0⟩ := hspec k0 (by simp)
  obtain ⟨a, t0, hk0⟩ := List.exists_cons_of_ne_nil hn0
  have ha : isPySpace a = false :=
    stripL_head_false k0 a t0 (by rw [hs0]; exact hk0)
  obtain ⟨t2, hout⟩ := joinSpace_head k0 ks' a t0 hk0
  rcases List.eq_nil_or_concat (k0 :: ks') with hcon | ⟨L, kl, hLk⟩
  · cases hcon
  rw [List.concat_eq_append] at hLk
  obtain ⟨hsl, hdl, htl, hal, hnl, hll⟩ := hspec kl (by rw [hLk]; simp)
  have hklrne : kl.reverse ≠ [] := by
    intro hh
    exact hnl (by simpa using congrArg List.reverse hh)
  obtain ⟨b, u, hklr⟩ := List.exists_cons_of_ne_nil hklrne
  have hb : isPySpace b = false :=
    stripL_reverse_head_false kl b u (by rw [hsl]; exact hklr)
  obtain ⟨w, hw0⟩ := joinSpace_concat_reverse L kl
  rw [← hLk] at hw0
  rw [hklr] at hw0
  have hw : (joinSpace (k0 :: ks')).reverse = b :: (u ++ w) := by
    rw [hw0]; rfl
  have hstrip : stripL (joinSpace (k0 :: ks')) = joinSpace (k0 :: ks') := by
    apply stripL_noop
    · intro a' t' h'
      rw [hout] at h'
      injection h' with h1 _
      subst h1
      exact ha
    · intro b' u' h'
      rw [hw] at h'
      injection h' with h1 _
      subst h1
      exact hb
  have hnewline : '\n' ∉ joinSpace (k0 :: ks') := by
    intro hn
    rcases mem_joinSpace (k0 :: ks') '\n' hn with h | ⟨k, hkmem, hkn⟩
    · cases h
    · exact (hspec k hkmem).2.2.2.2.2 hkn
  have hdig : allDigitsL (joinSpace (k0 :: ks')) = false := by
    cases ks' with
    | nil => simpa [joinSpace] using hd0
    | cons k1 ks2 =>
      refine allDigitsL_false_of_mem _ ' ' ?_ rfl
      rw [show joinSpace (k0 :: k1 :: ks2) = k0 ++ ' ' :: joinSpace (k1 :: ks2) from rfl]
      exact List.mem_append_right _ (List.mem_cons_self _ _)
  have hts : tsStart (joinSpace (k0 :: ks')) = false := by
    cases ks' with
    | nil => simpa [joinSpace] using ht0
    | cons k1 ks2 =>
      rw [show joinSpace (k0 :: k1 :: ks2) = k0 ++ ' ' :: joinSpace (k1 :: ks2) from rfl]
      exact tsStart_cons_space _ k0 ht0
  have harr : occursInL dashArrow (joinSpace (k0 :: ks')) = false :=
    occursIn_dashArrow_join_false _ (fun k hk => (hspec k hk).2.2.2.1)
  have hemp : (joinSpace (k0 :: ks')).isEmpty = false := by
    rw [hout]; rfl
  refine ⟨?_, hnewline⟩
  have hps : (if allDigitsL (stripL (joinSpace (k0 :: ks'))) = true then none
      else if tsStart (stripL (joinSpace (k0 :: ks'))) = true then none
      else if occursInL dashArrow (stripL (joinSpace (k0 :: ks'))) = true then none
      else if (stripL (joinSpace (k0 :: ks'))).isEmpty = true then none
      else some (stripL (joinSpace (k0 :: ks'))) : Option (List Char)) =
      processSrtLine (joinSpace (k0 :: ks')) := rfl
  rw [← hps, hstrip, hdig, hts, harr, hemp]
  simp only [Bool.false_eq_true, if_false]

theorem srt_to_text_idem (s : String) :
    srt_to_text (srt_to_text s) = srt_to_text s := by
  rcases hks : (splitLines s.toList).filterMap processSrtLine with _ | ⟨k0, ks'⟩
  · show srt_to_text (String.mk (joinSpace ((splitLines s.toList).filterMap processSrtLine))) =
      String.mk (joinSpace ((splitLines s.toList).filterMap processSrtLine))
    rw [hks]
    rfl
  · have hspec := srt_kept_spec s.toList
    rw [hks] at hspec
    obtain ⟨hps, hnl⟩ := srt_out_facts k0 ks' hspec
    show srt_to_text (String.mk (joinSpace ((splitLines s.toList).filterMap processSrtLine))) =
      String.mk (joinSpace ((splitLines s.toList).filterMap processSrtLine))
    rw [hks]
    show String.mk (joinSpace ((splitLines (joinSpace (k0 :: ks'))).filterMap processSrtLine)) =
      String.mk (joinSpace (k0 :: ks'))
    rw [splitLines_single _ hnl]
    rw [List.filterMap_cons, hps]
    rfl


theorem mem_rmTagsGo (l : List Char) :
    ∀ (buf : Option (List Char)) (x : Char), x ∈ rmTagsGo buf l →
      x = '<' ∨ x = '>' ∨ x ∈ buf.getD [] ∨ x ∈ l := by
  induction l with
  | nil =>
    intro buf x hx
    cases buf with
    | none => simp [rmTagsGo] at hx
    | some b =>
      rw [rmTagsGo] at hx
      rcases List.mem_cons.1 hx with hx | hx
      · exact Or.inl hx
      · rw [List.mem_reverse] at hx
        exact Or.inr (Or.inr (Or.inl hx))
  | cons c rest ih =>
    intro buf x hx
    cases buf with
    | none =>
      rw [rmTagsGo] at hx
      by_cases hc : c == '<'
      · rw [if_pos hc] at hx
        rcases ih (some []) x hx with h | h | h | h
        · exact Or.inl h
        · exact Or.inr (Or.inl h)
        · simp at h
        · exact Or.inr (Or.inr (Or.inr (List.mem_cons_of_mem c h)))
      · rw [if_neg hc] at hx
        rcases List.mem_cons.1 hx with hx | hx
        · exact Or.inr (Or.inr (Or.inr (hx ▸ List.mem_cons_self c rest)))
        · rcases ih none x hx with h | h | h | h
          · exact Or.inl h
          · exact Or.inr (Or.inl h)
          · simp at h
          · exact Or.inr (Or.inr (Or.inr (List.mem_cons_of_mem c h)))
    | some b =>
      rw [rmTagsGo] at hx
      by_cases hc : c == '>'
      · rw [if_pos hc] at hx
        by_cases hb : b.isEmpty
        · rw [if_pos hb] at hx
          rcases List.mem_cons.1 hx with hx | hx
          · exact Or.inl hx
          · rcases List.mem_cons.1 hx with hx | hx
            · exact Or.inr (Or.inl hx)
            · rcases ih none x hx with h | h | h | h
              · exact Or.inl h
              · exact Or.inr (Or.inl h)
              · simp at h
              · exact Or.inr (Or.inr (Or.inr (List.mem_cons_of_mem c h)))
        · rw [if_neg hb] at hx
          rcases ih none x hx with h | h | h | h
          · exact Or.inl h
          · exact Or.inr (Or.inl h)
          · simp at h
          · exact Or.inr (Or.inr (Or.inr (List.mem_cons_of_mem c h)))
      · rw [if_neg hc] at hx
        rcases ih (some (c :: b)) x hx with h | h | h | h
        · exact Or.inl h
        · exact Or.inr (Or.inl h)
        · simp only [Option.getD] at h
          rcases List.mem_cons.1 h with h | h
          · exact Or.inr (Or.inr (Or.inr (h ▸ List.mem_cons_self c rest)))
          · exact Or.inr (Or.inr (Or.inl (by simpa using h)))
        · exact Or.inr (Or.inr (Or.inr (List.mem_cons_of_mem c h)))

theorem mem_removeTags (l : List Char) (x : Char) (hx : x ∈ removeTags l) :
    x = '<' ∨ x = '>' ∨ x ∈ l := by
  rcases mem_rmTagsGo l none x hx with h | h | h | h
  · exact Or.inl h
  · exact Or.inr (Or.inl h)
  · simp at h
  · exact Or.inr (Or.inr h)

theorem mem_dedupAfter (ks : List (List Char)) :
    ∀ (prev k : List Char), k ∈ dedupAfter prev ks → k ∈ ks := by
  induction ks with
  | nil => intro prev k h; simp [dedupAfter] at h
  | cons y ys ih =>
    intro prev k h
    rw [dedupAfter] at h
    by_cases hy : y == prev
    · rw [if_pos hy] at h
      exact List.mem_cons_of_mem y (ih prev k h)
    · rw [if_neg hy] at h
      rcases List.mem_cons.1 h with h | h
      · exact h ▸ List.mem_cons_self y ys
      · exact List.mem_cons_of_mem y (ih y k h)

theorem mem_dedupConsec (ks : List (List Char)) (k : List Char)
    (h : k ∈ dedupConsec ks) : k ∈ ks := by
  cases ks with
  | nil => simp [dedupConsec] at h
  | cons x xs =>
    rw [dedupConsec] at h
    rcases List.mem_cons.1 h with h | h
    · exact h ▸ List.mem_cons_self x xs
    · exact List.mem_cons_of_mem x (mem_dedupAfter xs x k h)

theorem vttLineProcess_shape (raw k : List Char) (h : vttLineProcess raw = some k) :
    k = removeTags (stripL raw) := by
  have h0 : (if (stripL raw).isEmpty || occursInL dashArrow (stripL raw) ||
        leadsWith vttHeaderTag (stripL raw) || leadsWith vttKindTag (stripL raw) ||
        leadsWith vttLangTag (stripL raw) then none
      else if allDigitsL (stripL raw) = true then none
      else if (removeTags (stripL raw)).isEmpty = true then none
      else some (removeTags (stripL raw)) : Option (List Char)) = some k := h
  clear h
  split_ifs at h0 with h1 h2 h3
  injection h0 with h0
  exact h0.symm

theorem vtt_kept_no_newline (l : List Char) :
    ∀ k ∈ dedupConsec ((splitLines l).filterMap vttLineProcess), '\n' ∉ k := by
  intro k hk hn
  have hk2 := mem_dedupConsec _ k hk
  rw [List.mem_filterMap] at hk2
  obtain ⟨raw, hraw, hp⟩ := hk2
  rw [vttLineProcess_shape raw k hp] at hn
  rcases mem_removeTags _ '\n' hn with h | h | h
  · cases h
  · cases h
  · exact splitLines_no_newline l raw hraw (mem_stripL raw '\n' h)

theorem parse_vtt_conditional_idem (v : String)
    (hcond : parse_vtt_to_text v = "" ∨
      vttLineProcess (parse_vtt_to_text v).toList = some (parse_vtt_to_text v).toList) :
    parse_vtt_to_text (parse_vtt_to_text v) = parse_vtt_to_text v := by
  rcases hcond with hcond | hcond
  · rw [hcond]
    rfl
  · have hnl : '\n' ∉ (parse_vtt_to_text v).toList := by
      show '\n' ∉ (String.mk (joinSpace (dedupConsec
        ((splitLines v.toList).filterMap vttLineProcess)))).toList
      intro hn
      rcases mem_joinSpace _ '\n' hn with h | ⟨k, hkmem, hkn⟩
      · cases h
      · exact vtt_kept_no_newline v.toList k hkmem hkn
    show String.mk (joinSpace (dedupConsec
      ((splitLines (parse_vtt_to_text v).toList).filterMap vttLineProcess))) = parse_vtt_to_text v
    rw [splitLines_single _ hnl]
    rw [List.filterMap_cons, hcond]
    show String.mk (joinSpace (dedupConsec [(parse_vtt_to_text v).toList])) = parse_vtt_to_text v
    rfl

/-! ## Claim theorems -/

/-- C10 (confirmed): the duplicate-transcript detection examines only the
first 20 child blocks of a page — the children request asks for
`page_size=20` — and only the first rich-text fragment of each heading:
`check_page_has_transcript` returns `true` iff some `heading_2` block among
the first 20 children has `'Transcript'` in its first rich-text element's
content; in particular a page whose transcript heading lies beyond the first
20 blocks is reported as having no transcript. -/
theorem C10_check_first_twenty (children : List NBlock) :
    check_page_has_transcript (some (childrenFirstPage children)) = true ↔
      ∃ b ∈ children.take 20, ∃ t ts, b = NBlock.heading2 (t :: ts) ∧
        occursIn "Transcript" t = true := by
  simp only [check_page_has_transcript, childrenFirstPage, List.any_eq_true]
  constructor
  · rintro ⟨b, hb, h⟩; exact ⟨b, hb, (blockIsTranscriptHeading_iff b).1 h⟩
  · rintro ⟨b, hb, h⟩; exact ⟨b, hb, (blockIsTranscriptHeading_iff b).2 h⟩

/-- C3 counterexample: the AssemblyAI ledger save is a single direct
whole-file write to the progress path, so a crash while it executes is
observable as a torn (half-written) file — the claimed temp-then-rename
atomicity does not hold. -/
theorem C3_save_not_atomic_counterexample :
    WriteView.torn ∈ crashObservations aaiProgressPath (save_progress_aai ⟨[], [], []⟩) := by
  simp [crashObservations, save_progress_aai]

/-- C3 (corrected): both `save_progress` implementations persist the full
state with one direct whole-file write to the progress file — no temporary
file and no rename — so a crash mid-write can be observed half-written; the
temp-then-rename save described by the spec would admit no torn observation. -/
theorem C3_save_direct_write (p : AaiProgress) (q : CaptionProgress) :
    save_progress_aai p = [FsOp.writeWhole aaiProgressPath p] ∧
    save_progress_captions q = [FsOp.writeWhole captionProgressPath q] ∧
    WriteView.torn ∈ crashObservations aaiProgressPath (save_progress_aai p) ∧
    WriteView.torn ∈ crashObservations captionProgressPath (save_progress_captions q) ∧
    WriteView.torn ∉ crashObservations aaiProgressPath (atomicReplaceSave aaiProgressPath p) := by
  refine ⟨rfl, rfl, ?_, ?_, ?_⟩ <;>
    simp [crashObservations, save_progress_aai, save_progress_captions, atomicReplaceSave]

/-- C4 counterexample: episode "5" has a pending job "J1"; when polling times
out, `transcribe_episode` records the episode as failed and removes the
pending entry (the job id is dropped), and the caption pipeline records a
timed-out download in `failed` — contradicting "remains pending … never
recorded as failed". -/
theorem C4_timeout_marked_failed_counterexample :
    (transcribe_episode ⟨false, none, none, PollRes.timedOut⟩ "5"
        ⟨[], [], [("5", "J1")]⟩).1 =
      ⟨[], [("5", "Transcription timed out after 600s")], []⟩ ∧
    recordCaptionResult ⟨[], [], []⟩ "y1" DlResult.dlTimeout = ⟨[], ["y1"], []⟩ := by
  constructor <;> rfl

/-- C4 (corrected): when the bounded polling ceiling elapses, the AssemblyAI
pipeline appends the episode to `failed` with the timeout message and removes
its pending entry, so the external job id is not retained and a future run
will resubmit rather than resume; the caption pipeline records a timed-out
download in `failed` as well — a timeout is conflated with permanent failure. -/
theorem C4_timeout_conflated_with_failure (env : TEnv) (ep j : String) (p : AaiProgress)
    (cp : CaptionProgress) (yt : String)
    (hout : env.outputFileExists = false) (hcomp : ep ∉ p.completed)
    (hpend : lookupPending p.pending ep = some j) (hpoll : env.pollResp = PollRes.timedOut) :
    (transcribe_episode env ep p).1 =
      { p with failed := p.failed ++ [(ep, "Transcription timed out after 600s")],
               pending := popPending p.pending ep } ∧
    lookupPending (transcribe_episode env ep p).1.pending ep = none ∧
    recordCaptionResult cp yt DlResult.dlTimeout = { cp with failed := cp.failed ++ [yt] } := by
  have h1 : (transcribe_episode env ep p).1 =
      { p with failed := p.failed ++ [(ep, "Transcription timed out after 600s")],
               pending := popPending p.pending ep } := by
    simp [transcribe_episode, hout, hcomp, hpend, pollPhase, hpoll, aaiFail]
  refine ⟨h1, ?_, rfl⟩
  rw [h1]
  exact lookupPending_popPending p.pending ep

/-- Witness for C4 at a concrete input: pending job "J9" for episode "7",
poll times out. -/
theorem C4_timeout_conflated_with_failure_witness :
    (transcribe_episode ⟨false, none, none, PollRes.timedOut⟩ "7" ⟨[], [], [("7", "J9")]⟩).1 =
      { completed := [], failed := [("7", "Transcription timed out after 600s")],
        pending := popPending [("7", "J9")] "7" } ∧
    lookupPending (transcribe_episode ⟨false, none, none, PollRes.timedOut⟩ "7"
        ⟨[], [], [("7", "J9")]⟩).1.pending "7" = none ∧
    recordCaptionResult ⟨[], [], []⟩ "y1" DlResult.dlTimeout =
      { completed := ([] : List String), failed := ["y1"], no_captions := [] } := by
  have h := C4_timeout_conflated_with_failure ⟨false, none, none, PollRes.timedOut⟩ "7" "J9"
    ⟨[], [], [("7", "J9")]⟩ ⟨[], [], []⟩ "y1" rfl (by simp) rfl rfl
  exact h

/-- C2 (confirmed): whenever `transcribe_episode` submits a job, the trace is
submit, then a progress save in which the episode's pending entry holds the
returned job id, then the first poll — the id is durably recorded before any
polling; and when a pending job id is already recorded for the episode, the
function never submits, polls only that id, and (unless the episode is
already done) does poll it. -/
theorem C2_submit_recorded_before_poll (env : TEnv) (ep j : String) (p : AaiProgress) :
    (lookupPending p.pending ep = some j →
      (∀ t, AaiAction.submitJob t ∉ (transcribe_episode env ep p).2.1) ∧
      (∀ t, AaiAction.pollJob t ∈ (transcribe_episode env ep p).2.1 → t = j) ∧
      (env.outputFileExists = false → ep ∉ p.completed →
        AaiAction.pollJob j ∈ (transcribe_episode env ep p).2.1)) ∧
    (∀ t, AaiAction.submitJob t ∈ (transcribe_episode env ep p).2.1 →
      lookupPending (setPending p.pending ep t) ep = some t ∧
      ∃ rest, (transcribe_episode env ep p).2.1 =
        AaiAction.submitJob t ::
          AaiAction.saveProgressFile { p with pending := setPending p.pending ep t } ::
          AaiAction.pollJob t :: rest) := by
  rcases env with ⟨out, au, sub, poll⟩
  constructor
  · intro hpend
    refine ⟨?_, ?_, ?_⟩
    · intro t
      cases out <;> by_cases hc : ep ∈ p.completed <;> cases poll <;>
        simp [transcribe_episode, hpend, pollPhase, aaiFail, hc]
    · intro t ht
      cases out <;> by_cases hc : ep ∈ p.completed <;> cases poll <;>
        simp_all [transcribe_episode, hpend, pollPhase, aaiFail, hc]
    · intro hout hc
      subst hout
      cases poll <;> simp [transcribe_episode, hpend, pollPhase, aaiFail, hc]
  · intro t ht
    cases out <;> by_cases hc : ep ∈ p.completed <;>
      cases hlp : lookupPending p.pending ep <;> cases au <;> cases sub <;> cases poll <;>
        simp_all [transcribe_episode, pollPhase, aaiFail] <;>
          exact lookupPending_setPending p.pending ep _

/-- Witness for C2 at a concrete input: episode "5" has pending job "J1";
the resumed run never submits and does poll "J1". -/
theorem C2_submit_recorded_before_poll_witness :
    AaiAction.submitJob "X" ∉
      (transcribe_episode ⟨false, none, none, PollRes.done⟩ "5" ⟨[], [], [("5", "J1")]⟩).2.1 ∧
    AaiAction.pollJob "J1" ∈
      (transcribe_episode ⟨false, none, none, PollRes.done⟩ "5" ⟨[], [], [("5", "J1")]⟩).2.1 := by
  have h := (C2_submit_recorded_before_poll ⟨false, none, none, PollRes.done⟩ "5" "J1"
    ⟨[], [], [("5", "J1")]⟩).1 rfl
  exact ⟨h.1 "X", h.2.2 rfl (by simp)⟩

set_option maxRecDepth 8192 in
/-- C1 counterexample: a page whose children already contain the transcript
heading (so `check_page_has_transcript` is `true` on it), with a valid
150-character transcript; the drive sync's per-item processing nevertheless
issues an `appendBlocks` publish call — it performs no heading check, so its
publish is not a no-op on a page that already has the section. -/
theorem C1_drive_republishes_counterexample :
    check_page_has_transcript (some (childrenFirstPage [NBlock.heading2 ["📝 Transcript"]])) =
      true ∧
    runResultHasAppend (driveProcessItem
      ⟨some (String.mk (List.replicate 150 'a')), NetResult.ok (some "p1"), NetResult.ok (),
        [NBlock.heading2 ["📝 Transcript"]]⟩ ⟨0, 0⟩ "42") = true := by
  constructor <;> rfl

/-- C1 (corrected): only the YouTube sync is publish-idempotent.  There,
whenever the children read reports an existing transcript heading the item's
trace contains no append (and the already-has-transcript path records
`skipped`); moreover a second run over inputs whose episodes are all already
in the progress sets filters out every item, performs no calls at all and
leaves the persisted progress state unchanged.  The drive sync
(`sync_transcripts_to_notion.py`) has no such check and re-appends. -/
theorem C1_yt_guard_and_second_run_noop :
    (∀ (env : YtItemEnv) (st : YtSyncProgress) (ep : String),
      check_page_has_transcript (notion_request_yt env.childrenResp) = true →
      traceHasAppend (ytProcessItem env st ep).2 = false) ∧
    (∀ (envOf : String → YtItemEnv) (stems : List String) (st : YtSyncProgress),
      (∀ s ∈ stems, ∀ ep, epFromStem s = some ep → ep ∈ processedSet st) →
      ytRun envOf stems st = (st, [])) := by
  constructor
  · intro env st ep hch
    by_cases he : ep.isEmpty = true
    · simp [ytProcessItem, he, traceHasAppend]
    · by_cases hd : allDigitsL ep.data = true
      · cases hv : env.vttContent with
        | none => simp [ytProcessItem, he, hd, hv, traceHasAppend]
        | some vtt =>
          by_cases hlen : (parse_vtt_to_text vtt).length < 100
          · simp [ytProcessItem, he, hd, hv, hlen, traceHasAppend]
          · cases hq : find_episode_page_yt env.pageQueryResp with
            | none => simp [ytProcessItem, he, hd, hv, hlen, hq, traceHasAppend]
            | some pid => simp [ytProcessItem, he, hd, hv, hlen, hq, hch, traceHasAppend]
      · simp [ytProcessItem, he, hd, traceHasAppend]
  · intro envOf stems st hall
    have hempty : ytToProcess stems st = [] := by
      rw [ytToProcess, List.filterMap_eq_nil_iff]
      intro s hs
      cases hep : epFromStem s with
      | none => rfl
      | some ep => simp [hep, hall s hs ep hep]
    rw [ytRun, hempty]
    rfl

/-- Witness for C1 at concrete inputs: a page whose first children hold the
transcript heading yields no append; a second run whose only stem parses to
the already-synced episode "7" is a complete no-op. -/
theorem C1_yt_guard_and_second_run_noop_witness :
    traceHasAppend (ytProcessItem
      ⟨some "x", NetResult.ok (some "p1"), NetResult.ok [NBlock.heading2 ["📝 Transcript"]],
        NetResult.ok ()⟩ ⟨[], [], []⟩ "7").2 = false ∧
    ytRun (fun _ => ⟨none, NetResult.httpError, NetResult.httpError, NetResult.httpError⟩)
      ["ep7_abc.en"] ⟨["7"], [], []⟩ = (⟨["7"], [], []⟩, []) := by
  constructor
  · exact C1_yt_guard_and_second_run_noop.1 _ _ _ (by rfl)
  · refine C1_yt_guard_and_second_run_noop.2 _ _ _ ?_
    intro s hs ep hep
    have hseq : s = "ep7_abc.en" := by simpa using hs
    subst hseq
    rw [show epFromStem "ep7_abc.en" = some "7" from rfl] at hep
    injection hep with hep7
    subst hep7
    simp [processedSet]

/-- C7 counterexample: in the drive sync, a 40-character transcript and a true
source error (page query HTTP failure on a valid 150-character transcript)
are recorded identically — both merely increment the shared `failed` counter
— so the too-short outcome is not recorded under a category distinct from a
true source error.  (The trace `[]` of the first run also shows the short
transcript was never published.) -/
theorem C7_drive_same_category_counterexample :
    driveProcessItem ⟨some (String.mk (List.replicate 40 'a')), NetResult.ok (some "p1"),
        NetResult.ok (), []⟩ ⟨0, 0⟩ "7" = Except.ok (⟨0, 1⟩, []) ∧
    driveProcessItem ⟨some (String.mk (List.replicate 150 'a')), NetResult.httpError,
        NetResult.ok (), []⟩ ⟨0, 0⟩ "7" = Except.ok (⟨0, 1⟩, [Action.queryPage "7"]) := by
  constructor <;> rfl

/-- C7 (corrected): a normalized transcript shorter than 100 characters is
never published by either sync script (the item's trace is empty, so no
append occurs); the YouTube sync records it in `skipped` — distinct from its
`failed` error category — while the drive sync increments the same `failed`
counter it uses for true source errors. -/
theorem C7_too_short_never_published :
    (∀ (env : DriveEnv) (st : DriveSt) (ep c : String), env.textContent = some c →
      (pyStripStr c).length < 100 →
      driveProcessItem env st ep = Except.ok ({ st with failed := st.failed + 1 }, [])) ∧
    (∀ (env : YtItemEnv) (st : YtSyncProgress) (ep vtt : String),
      ep.isEmpty = false → allDigitsL ep.toList = true →
      env.vttContent = some vtt → (parse_vtt_to_text vtt).length < 100 →
      ytProcessItem env st ep = ({ st with skipped := st.skipped ++ [ep] }, [])) := by
  constructor
  · intro env st ep c hc hlen
    simp [driveProcessItem, hc, hlen]
  · intro env st ep vtt hne hdig hv hlen
    have hdig2 : allDigitsL ep.data = true := hdig
    simp [ytProcessItem, hne, hdig2, hv, hlen]

/-- Witness for C7 at a concrete input: a 40-character transcript in each
script; no publish call is made and the outcome categories are as stated. -/
theorem C7_too_short_never_published_witness :
    driveProcessItem ⟨some (String.mk (List.replicate 40 'a')), NetResult.httpError,
        NetResult.ok (), []⟩ ⟨2, 3⟩ "9" = Except.ok ({ synced := 2, failed := 4 }, []) ∧
    ytProcessItem ⟨some (String.mk (List.replicate 40 'a')), NetResult.httpError,
        NetResult.httpError, NetResult.httpError⟩ ⟨[], [], []⟩ "9" =
      ({ synced := [], failed := [], skipped := ["9"] }, []) := by
  constructor
  · exact C7_too_short_never_published.1 _ _ _ _ rfl (by decide)
  · exact C7_too_short_never_published.2 _ _ _ _ rfl (by decide) rfl (by decide)

set_option maxRecDepth 8192 in
/-- C8 counterexample: a non-HTTP network exception while querying the first
item's page is not caught anywhere in `sync_transcripts_to_notion.py`, so the
whole run aborts and the second (perfectly healthy) item is never processed —
contradicting "no single item's failure aborts the whole run". -/
theorem C8_net_exception_aborts_counterexample :
    driveRun
      [("1", ⟨some (String.mk (List.replicate 150 'a')), NetResult.netExn "Connection refused",
          NetResult.ok (), []⟩),
       ("2", ⟨some (String.mk (List.replicate 150 'a')), NetResult.ok (some "p2"),
          NetResult.ok (), []⟩)] ⟨0, 0⟩ =
      Except.error "Connection refused" := by
  rfl

/-- C8 (corrected): the YouTube sync's `notion_request` swallows every
exception, and in the drive sync HTTP errors, missing files, short
transcripts and missing pages are all recorded per item with the run
continuing — but the drive sync's `notion_request` catches only `HTTPError`,
so a non-HTTP network exception in any per-item Notion call escapes and
aborts the run, skipping every later item. -/
theorem C8_item_failures_caught_except_net_exn :
    (∀ (m : String), notion_request_yt (NetResult.netExn m : NetResult (List NBlock)) = none) ∧
    (∀ (m : String), notion_request_drive (NetResult.netExn m : NetResult (Option String)) =
      Except.error m) ∧
    (∀ (env : DriveEnv) (st : DriveSt) (ep : String), driveEnvNoExn env = true →
      runOk (driveProcessItem env st ep) = true) ∧
    (∀ (items : List (String × DriveEnv)) (st : DriveSt),
      (∀ it ∈ items, driveEnvNoExn it.2 = true) → runOk (driveRun items st) = true) ∧
    (∀ (ep : String) (env : DriveEnv) (rest : List (String × DriveEnv)) (st : DriveSt)
        (m : String),
      driveProcessItem env st ep = Except.error m →
      driveRun ((ep, env) :: rest) st = Except.error m) := by
  have hitem : ∀ (env : DriveEnv) (st : DriveSt) (ep : String), driveEnvNoExn env = true →
      runOk (driveProcessItem env st ep) = true := by
    intro env st ep hno
    rcases env with ⟨tc, pq, ar, pc⟩
    cases tc with
    | none => rfl
    | some c =>
      by_cases hlen : (pyStripStr c).length < 100
      · simp [driveProcessItem, hlen, runOk]
      · cases pq with
        | netExn m => simp [driveEnvNoExn] at hno
        | httpError =>
          simp [driveProcessItem, hlen, runOk, find_episode_page_drive, notion_request_drive]
        | ok v =>
          cases ar with
          | netExn m => simp [driveEnvNoExn] at hno
          | httpError =>
            cases v <;>
              simp [driveProcessItem, hlen, runOk, find_episode_page_drive, notion_request_drive]
          | ok u =>
            cases v <;>
              simp [driveProcessItem, hlen, runOk, find_episode_page_drive, notion_request_drive]
  refine ⟨fun m => rfl, fun m => rfl, hitem, ?_, ?_⟩
  · intro items st hall
    induction items generalizing st with
    | nil => rfl
    | cons it rest ih =>
      rcases it with ⟨ep, env⟩
      have h1 := hitem env st ep (hall (ep, env) (by simp))
      cases hdp : driveProcessItem env st ep with
      | error m => rw [hdp] at h1; simp [runOk] at h1
      | ok pr =>
        rcases pr with ⟨st1, as1⟩
        have h2 := ih st1 (fun it hit => hall it (by simp [hit]))
        cases hdr : driveRun rest st1 with
        | error m => rw [hdr] at h2; simp [runOk] at h2
        | ok pr2 =>
          rcases pr2 with ⟨st2, as2⟩
          simp [driveRun, hdp, hdr, runOk]
  · intro ep env rest st m h
    simp [driveRun, h]

set_option maxRecDepth 8192 in
/-- C6 counterexample: a transcript consisting of one 2000-character word is
split by both scripts' chunking loop into an empty chunk and a chunk of
exactly 2000 characters — a chunk at the platform's 2000-character per-block
limit, not strictly below it. -/
theorem C6_chunk_at_limit_counterexample :
    (chunkText (List.replicate 2000 'a')).map List.length = [0, 2000] := by
  have hw : splitWs (List.replicate 2000 'a') = [List.replicate 2000 'a'] :=
    splitWs_nospace _ (fun c hc => by rw [List.eq_of_mem_replicate hc]; rfl)
      (List.ne_nil_of_length_pos (by rw [List.length_replicate]; norm_num))
  rw [chunkText, hw, chunkLoop_single_long _ (by rw [List.length_replicate]; norm_num)]
  rw [List.map_cons, List.map_cons, List.map_nil, List.length_nil, List.length_replicate]

/-- C6 (corrected): provided every whitespace-delimited word of the transcript
is shorter than 1900 characters, every chunk is at most 1900 characters and
hence strictly below the platform's 2000-character block limit (a word of
1900 or more characters becomes its own chunk of its full length, as the
counterexample shows).  The YouTube sync's request never exceeds 100 blocks
and replaces overflow beyond 97 chunks with an explicit truncation-marker
paragraph; the drive sync builds `1 + min(#chunks, 100)` blocks — up to 101,
exceeding the 100-block cap — and silently drops overflow with no marker. -/
theorem C6_chunking_bounds :
    (∀ (t : List Char), (∀ w ∈ splitWs t, w.length < 1900) →
      ∀ c ∈ chunkText t, c.length ≤ 1900) ∧
    (∀ (chunks : List (List Char)), (ytBlocks chunks).length ≤ 100) ∧
    (∀ (chunks : List (List Char)), 97 < chunks.length →
      NBlock.paragraph [truncMarker (chunks.length - 97)] ∈ ytBlocks chunks) ∧
    (∀ (chunks : List (List Char)), (driveBlocks chunks).length = 1 + min chunks.length 100) := by
  refine ⟨?_, ?_, ?_, ?_⟩
  · intro t hw c hc
    exact chunkLoop_length_bound (splitWs t) [] [] 0 hw (by simp) (by simp [joinSpace])
      (by norm_num) c hc
  · intro chunks
    have h1 : (chunks.take 97).length ≤ 97 := by
      rw [List.length_take]; omega
    by_cases h : chunks.length > 97 <;> simp [ytBlocks, h] <;> omega
  · intro chunks h
    simp [ytBlocks, h]
  · intro chunks
    simp [driveBlocks, List.length_take]
    omega

set_option maxRecDepth 8192 in
/-- Witness for C6 at concrete inputs: the two-word transcript "hello world"
chunks within bounds, and a 98-chunk list gets the truncation marker. -/
theorem C6_chunking_bounds_witness :
    (String.toList "hello world").length ≤ 1900 ∧
    NBlock.paragraph [truncMarker 1] ∈ ytBlocks (List.replicate 98 []) := by
  constructor
  · exact C6_chunking_bounds.1 "hello world".toList (by decide) _ (by decide)
  · have h := C6_chunking_bounds.2.2.1 (List.replicate 98 [])
      (by rw [List.length_replicate]; norm_num)
    rw [List.length_replicate] at h
    exact h

/-- C9 counterexample: the VTT normalizer is not idempotent.  On `"<x>1"`,
tag removal uncovers the all-digits line `"1"`, which a second pass filters
out as a cue identifier: `parse_vtt_to_text "<x>1" = "1"` but
`parse_vtt_to_text "1" = ""`. -/
theorem C9_vtt_not_idempotent_counterexample :
    parse_vtt_to_text "<x>1" = "1" ∧ parse_vtt_to_text "1" = "" ∧
    parse_vtt_to_text (parse_vtt_to_text "<x>1") ≠ parse_vtt_to_text "<x>1" := by
  refine ⟨rfl, rfl, by decide⟩

/-- C9 (corrected): the SRT normalizer `srt_to_text` is idempotent on every
input; the VTT normalizer `parse_vtt_to_text` is idempotent only when its
output, reprocessed as a single line, passes the cue filters and is fixed by
tag removal (or is empty) — reapplying it can otherwise filter the
already-flat output, as when tag removal uncovers an all-digits line or a
header prefix. -/
theorem C9_normalizer_idempotence :
    (∀ s : String, srt_to_text (srt_to_text s) = srt_to_text s) ∧
    (∀ v : String, (parse_vtt_to_text v = "" ∨
        vttLineProcess (parse_vtt_to_text v).toList = some (parse_vtt_to_text v).toList) →
      parse_vtt_to_text (parse_vtt_to_text v) = parse_vtt_to_text v) :=
  ⟨srt_to_text_idem, parse_vtt_conditional_idem⟩

/-- Witness for C9 at a concrete input: the already-flat line "hello world"
survives the VTT line filters unchanged, so a second pass is the identity. -/
theorem C9_normalizer_idempotence_witness :
    parse_vtt_to_text (parse_vtt_to_text "hello world") = parse_vtt_to_text "hello world" :=
  C9_normalizer_idempotence.2 "hello world" (Or.inr (by rfl))

/-- C5 counterexample: an episode with an empty guest name.  Its normalized
guest name `""` is contained in every normalized artifact name, so the claim
demands an immediate accept at confidence 1.0; but `match_guest` skips
empty-guest episodes before the containment test (`if not guest: continue`)
and returns no match — even under the most favourable similarity function
(constantly 1). -/
theorem C5_empty_guest_counterexample :
    occursInL (normalize_name "").toList (normalize_name "Anything").toList = true ∧
    match_guest (fun _ _ => 1) "Anything" [⟨"1", ""⟩] = (none, 0) := by
  constructor <;> rfl

/-- C5 (corrected): the scan accepts at confidence exactly 1.0 the first
episode (in catalog order) whose lowercased — not fully normalized — guest
name is nonempty and contains or is contained in the normalized artifact
name; with no such episode, it returns `(none, 0)` when every similarity
ratio is at or below `3/5`, and any fuzzy match it does return carries a
score strictly above `3/5` equal to its own ratio and maximal among all
nonempty-guest episodes' ratios.  The two concrete spec instances hold:
"Jane Smith (Final)" matches guest "Jane Smith" at 1.0, and a best ratio of
`29/50 = 0.58` yields no match. -/
theorem C5_matcher_behaviour :
    (∀ (ratio : String → String → ℚ) (name : String) (eps : List Episode) (ep : Episode),
      eps.find? (guestHit (normalize_name name)) = some ep →
      match_guest ratio name eps = (some ep, 1)) ∧
    (∀ (ratio : String → String → ℚ) (name : String) (eps : List Episode),
      (∀ e ∈ eps, guestHit (normalize_name name) e = false) →
      (∀ e ∈ eps, ratio (normalize_name name) (pyLowerStr e.guest) ≤ 3 / 5) →
      match_guest ratio name eps = (none, 0)) ∧
    (∀ (ratio : String → String → ℚ) (name : String) (eps : List Episode) (e : Episode) (s : ℚ),
      (∀ x ∈ eps, guestHit (normalize_name name) x = false) →
      match_guest ratio name eps = (some e, s) →
      (3 / 5 : ℚ) < s ∧
      (∀ x ∈ eps, (pyLowerStr x.guest).isEmpty = false →
        ratio (normalize_name name) (pyLowerStr x.guest) ≤ s ∨
        ratio (normalize_name name) (pyLowerStr x.guest) ≤ 3 / 5)) ∧
    (match_guest (fun _ _ => 0) "Jane Smith (Final)" [⟨"1", "Jane Smith"⟩] =
      (some ⟨"1", "Jane Smith"⟩, 1)) ∧
    (match_guest (fun _ _ => 29 / 50) "jsmith_interview_v2" [⟨"1", "Jane Smith"⟩] = (none, 0)) := by
  have hnone : ∀ (ratio : String → String → ℚ) (name : String) (eps : List Episode),
      (∀ e ∈ eps, guestHit (normalize_name name) e = false) →
      (∀ e ∈ eps, ratio (normalize_name name) (pyLowerStr e.guest) ≤ 3 / 5) →
      match_guest ratio name eps = (none, 0) := by
    intro ratio name eps hno hle
    rw [match_guest]
    rcases hm : matchGo ratio (normalize_name name) eps none 0 with ⟨b', s'⟩
    obtain ⟨ha, hb, hc⟩ := matchGo_no_hit_max ratio (normalize_name name) eps none 0 hno b' s' hm
    rcases hb with ⟨hb1, hb2⟩ | ⟨e, he, hb1, hb2, hb3⟩
    · rw [hb1, hb2]
    · exfalso
      rw [hb2] at hb3
      exact absurd (hle e he) (not_le.2 hb3)
  refine ⟨?_, hnone, ?_, by rfl, ?_⟩
  · intro ratio name eps ep h
    rw [match_guest]
    exact matchGo_find_hit ratio (normalize_name name) eps ep h none 0
  · intro ratio name eps e s hno hm
    rw [match_guest] at hm
    obtain ⟨ha, hb, hc⟩ := matchGo_no_hit_max ratio (normalize_name name) eps none 0 hno
      (some e) s hm
    rcases hb with ⟨hb1, _⟩ | ⟨x, _, hb1, hb2, hb3⟩
    · cases hb1
    · exact ⟨hb3, hc⟩
  · refine hnone _ _ _ ?_ ?_
    · intro e he
      rw [List.mem_singleton] at he
      subst he
      rfl
    · intro e he
      norm_num

/-- Witness for C5 at a concrete input: the single-episode catalog with guest
"Bob Jones" is an immediate containment hit for the artifact name
"Bob Jones interview". -/
theorem C5_matcher_behaviour_witness :
    match_guest (fun _ _ => 0) "Bob Jones interview" [⟨"2", "Bob Jones"⟩] =
      (some ⟨"2", "Bob Jones"⟩, 1) :=
  C5_matcher_behaviour.1 _ _ _ _ (by rfl)

set_option maxRecDepth 8192 in
/-- Witness for C8 at concrete inputs: a one-item exception-free run
completes, and a run whose first item raises a non-HTTP exception aborts. -/
theorem C8_item_failures_caught_except_net_exn_witness :
    runOk (driveRun [("1", ⟨some (String.mk (List.replicate 150 'a')), NetResult.ok (some "p1"),
        NetResult.ok (), []⟩)] ⟨0, 0⟩) = true ∧
    driveRun [("1", ⟨some (String.mk (List.replicate 150 'a')), NetResult.netExn "boom",
        NetResult.ok (), []⟩)] ⟨0, 0⟩ = Except.error "boom" := by
  constructor
  · refine (C8_item_failures_caught_except_net_exn).2.2.2.1 _ _ ?_
    intro it hit
    have : it = ("1", (⟨some (String.mk (List.replicate 150 'a')), NetResult.ok (some "p1"),
        NetResult.ok (), []⟩ : DriveEnv)) := by simpa using hit
    subst this
    rfl
  · exact (C8_item_failures_caught_except_net_exn).2.2.2.2 "1" _ [] ⟨0, 0⟩ "boom" rfl

end Sync
